import Mathlib

/-!
Shallow embedding of the `trie-viz` core: the trie data structure of
`src/trie.ts` and the highlight/render state machine of `src/visualizer.ts`.

Modelling conventions:
* a JS string is a `List Char` (`for..of` iterates characters in order);
* a JS `Map` is an association list in insertion order with unique keys:
  `Map.set` on a present key replaces the value in place, on an absent key
  appends at the end, exactly the JS iteration-order contract;
* stroke widths are rationals (the source uses the literals `2.5`, `4`, `2`).
-/

abbrev Word := List Char

/-- The `InternalNode` of trie.ts (lines 21-25): children map, terminal flag,
words ending at this node. -/
inductive Node where
  | mk (children : List (Char × Node)) (isTerminal : Bool) (words : List Word)

def Node.children : Node → List (Char × Node)
  | .mk cs _ _ => cs

def Node.isTerminal : Node → Bool
  | .mk _ b _ => b

def Node.words : Node → List Word
  | .mk _ _ ws => ws

/-- The `createNode()` helper of trie.ts (lines 27-29). -/
def createNode : Node := .mk [] false []

/-- JS `Map.get` on the association-list model. -/
def mapGet (m : List (Char × Node)) (k : Char) : Option Node :=
  match m with
  | [] => none
  | (k', v) :: rest => if k' = k then some v else mapGet rest k

/-- JS `Map.set`: replaces the value of a present key in place, appends a
fresh key at the end (JS `Map` insertion-order semantics). -/
def mapSet (m : List (Char × Node)) (k : Char) (v : Node) : List (Char × Node) :=
  match m with
  | [] => [(k, v)]
  | (k', v') :: rest => if k' = k then (k', v) :: rest else (k', v') :: mapSet rest k v

/-- The character walk of `Trie.insert` (trie.ts lines 38-49): descend along
`chars`, creating missing nodes, then apply the duplicate check and the
terminal marking at the final node.  Returns the updated subtree and the
boolean result of `insert`. -/
def insertAux (n : Node) (chars : Word) (word : Word) : Node × Bool :=
  match chars with
  | [] =>
      if n.isTerminal then (n, false)
      else (.mk n.children true (n.words ++ [word]), true)
  | c :: rest =>
      let child := (mapGet n.children c).getD createNode
      let res := insertAux child rest word
      (.mk (mapSet n.children c res.1) n.isTerminal n.words, res.2)

/-- The `Trie` class state (trie.ts lines 31-33): root node and the private
`_words` list of accepted words in insertion order. -/
structure Trie where
  root : Node
  wordList : List Word

/-- The state `new Trie()` constructs. -/
def Trie.mkEmpty : Trie := { root := createNode, wordList := [] }

/-- Model of `Trie.insert` (trie.ts lines 36-50).  `!word` is true for a JS string
exactly when it is empty.  The walk always leaves its (possibly identical)
updated root behind; `_words` is appended only on success. -/
def Trie.insert (t : Trie) (w : Word) : Trie × Bool :=
  if w = [] then (t, false)
  else
    let res := insertAux t.root w w
    ({ root := res.1, wordList := if res.2 then t.wordList ++ [w] else t.wordList }, res.2)

/-- The `words` getter (trie.ts 53-55) returns `[...this._words]`: a fresh
array whose contents equal the internal list.  Value-level it is the internal
list; the aliasing behaviour of the copy is modelled by `wordsGetter` below. -/
def Trie.words (t : Trie) : List Word := t.wordList

/-- The `wordCount` getter (trie.ts 57-59). -/
def Trie.wordCount (t : Trie) : Nat := t.wordList.length

mutual
/-- The `walk` of the `nodeCount` getter (trie.ts 62-70): one per node,
root included. -/
def Node.size : Node → Nat
  | .mk cs _ _ => 1 + sizeChildren cs
def sizeChildren : List (Char × Node) → Nat
  | [] => 0
  | (_, c) :: rest => Node.size c + sizeChildren rest
end

def Trie.nodeCount (t : Trie) : Nat := t.root.size

/-- The `TrieHierarchyNode` of trie.ts (lines 6-19). -/
inductive HNode where
  | mk (id : Word) (char : Word) (path : Word) (isTerminal : Bool)
       (words : List Word) (children : List HNode)

def HNode.id : HNode → Word
  | .mk i _ _ _ _ _ => i

def HNode.char : HNode → Word
  | .mk _ c _ _ _ _ => c

def HNode.path : HNode → Word
  | .mk _ _ p _ _ _ => p

def HNode.isTerminal : HNode → Bool
  | .mk _ _ _ b _ _ => b

def HNode.words : HNode → List Word
  | .mk _ _ _ _ ws _ => ws

def HNode.children : HNode → List HNode
  | .mk _ _ _ _ _ cs => cs

/-- The root sentinel id `'__root__'` (trie.ts line 84). -/
def rootId : Word := ['_', '_', 'r', 'o', 'o', 't', '_', '_']

/-- Lexicographic comparison of words; on the singleton `char` fields of
hierarchy children it is exactly the JS string comparison of the keys. -/
def wordLe : Word → Word → Bool
  | [], _ => true
  | _ :: _, [] => false
  | a :: as, b :: bs => decide (a < b) || (decide (a = b) && wordLe as bs)

/-- The order on hierarchy children used by `[...].sort()` (trie.ts line
79): compare the `char` fields as JS compares key strings. -/
def hLe (a b : HNode) : Prop := wordLe a.char b.char = true

instance : DecidableRel hLe := fun a b =>
  inferInstanceAs (Decidable (wordLe a.char b.char = true))

/-- Sorting hierarchy children by `char` ascending: the model of
`[...node.children.keys()].sort()` (trie.ts line 79). -/
def sortHN (l : List HNode) : List HNode := l.insertionSort hLe

mutual
/-- Model of the `convert` helper of `Trie.toHierarchy` (trie.ts lines 74-91).  The source sorts
the keys and converts each child in sorted key order via `Map.get`; because a
`Map` has unique keys this is the same as converting the children in map
order and sorting the converted list by `char`, which is the phrasing used
here so that the recursion is structural. -/
def Node.toHier : Node → Word → Word → HNode
  | .mk cs b ws, ch, path =>
      .mk (if path = [] then rootId else path) ch path b ws
        (sortHN (convChildren cs path))
def convChildren : List (Char × Node) → Word → List HNode
  | [], _ => []
  | (k, c) :: rest, path => c.toHier [k] (path ++ [k]) :: convChildren rest path
end

/-- Model of `Trie.toHierarchy` (trie.ts line 92): convert from the root with empty
char and empty path. -/
def Trie.toHierarchy (t : Trie) : HNode := t.root.toHier [] []

/-- Model of `Trie.clear` (trie.ts lines 96-99). -/
def Trie.clear (_t : Trie) : Trie := { root := createNode, wordList := [] }

/-- Walk the trie along a word without modifying it: the node reached at the
end, if the whole path exists.  Used to state the duplicate condition of
`insert` ("the terminal node at the end already has `isTerminal = true`"). -/
def Node.lookup : Node → Word → Option Node
  | n, [] => some n
  | n, c :: rest =>
      match mapGet n.children c with
      | some child => child.lookup rest
      | none => none

/-- Whether the node at the end of `cs` below `n` exists and is terminal. -/
def terminalAt (n : Node) (cs : Word) : Bool :=
  match n.lookup cs with
  | some m => m.isTerminal
  | none => false

/-- The claim's "word is already stored": its terminal node is marked. -/
def Trie.isStored (t : Trie) (w : Word) : Bool := terminalAt t.root w

/-- Fold a word list into a trie by repeated `insert`. -/
def buildOn (t : Trie) (ws : List Word) : Trie :=
  ws.foldl (fun t w => (t.insert w).1) t

/-- The trie obtained from `new Trie()` by a sequence of `insert` calls. -/
def buildTrie (ws : List Word) : Trie := buildOn Trie.mkEmpty ws

/-- A trie state reachable through the public API: some sequence of
`insert` calls on a fresh trie. -/
def Trie.Reachable (t : Trie) : Prop := ∃ ws, t = buildTrie ws

/-- Boolean list-prefix test (`isPfx p w` iff `p` is a prefix of `w`). -/
def isPfx : Word → Word → Bool
  | [], _ => true
  | _ :: _, [] => false
  | a :: as, b :: bs => decide (a = b) && isPfx as bs

mutual
/-- Every `(path, node)` pair of the subtree under `n`, whose own path is
`p` — the node itself first, then the descendants in map order. -/
def Node.entries : Node → Word → List (Word × Node)
  | .mk cs b ws, p => (p, .mk cs b ws) :: entriesChildren cs p
def entriesChildren : List (Char × Node) → Word → List (Word × Node)
  | [], _ => []
  | (k, c) :: rest, p => Node.entries c (p ++ [k]) ++ entriesChildren rest p
end

/-- All node paths of the subtree under `n`. -/
def Node.paths (n : Node) (p : Word) : List Word := (n.entries p).map Prod.fst

mutual
/-- Every node of a hierarchy tree, the root first. -/
def HNode.descendants : HNode → List HNode
  | .mk i c p b ws cs => .mk i c p b ws cs :: descList cs
def descList : List HNode → List HNode
  | [] => []
  | h :: rest => h.descendants ++ descList rest
end

/-- Every node of a hierarchy tree except the root itself. -/
def HNode.properDescendants (h : HNode) : List HNode := descList h.children

-- ─── The renderer model (src/visualizer.ts) ──────────────────────────

/-- One rendered node group.  Its SVG children are, in order: the optional
terminal ring circle, the main circle, the text label.  `ring` is `some w`
when the ring circle is present with stroke width `w`. -/
structure RNode where
  id : Word
  ring : Option ℚ
  mainStroke : ℚ

/-- One rendered link path, keyed by the target node's id (visualizer.ts
line 222), with its stroke width. -/
structure RLink where
  targetId : Word
  stroke : ℚ

/-- The rendered scene: the node layer and the link layer. -/
structure Scene where
  nodes : List RNode
  links : List RLink

/-- The node part of a render pass (visualizer.ts 239-318): the data join is
keyed by `id`.  Entering nodes get a main circle of stroke width 2 for the
`'__root__'` id and 2.5 otherwise (line 269) plus, when terminal, a ring of
stroke width 2 (lines 250-256).  Surviving nodes keep their circles'
current stroke widths (the update pass animates radius, fill and stroke
colour but never `stroke-width`); a surviving node that is terminal and has
no ring yet gets one inserted (lines 301-315).  Exiting nodes are removed. -/
def renderNodes (prev : List RNode) (hs : List HNode) : List RNode :=
  hs.map fun h =>
    match prev.find? (fun rn => decide (rn.id = h.id)) with
    | some rn =>
        { rn with ring := if h.isTerminal && rn.ring.isNone then some 2 else rn.ring }
    | none =>
        { id := h.id
          ring := if h.isTerminal then some 2 else none
          mainStroke := if h.id = rootId then 2 else 2.5 }

/-- The link part of a render pass (visualizer.ts 214-236): the join is
keyed by the target id; entering links get stroke width 2.5 (line 229),
surviving links keep their stroke width (only the geometry is updated),
exiting links are removed. -/
def renderLinks (prev : List RLink) (targets : List Word) : List RLink :=
  targets.map fun tid =>
    match prev.find? (fun l => decide (l.targetId = tid)) with
    | some l => l
    | none => { targetId := tid, stroke := 2.5 }

/-- A full render pass over the current trie: nodes are the hierarchy's
descendants, links are one per non-root node, keyed by its id. -/
def Scene.render (s : Scene) (t : Trie) : Scene :=
  let h := t.toHierarchy
  { nodes := renderNodes s.nodes h.descendants
    links := renderLinks s.links (h.properDescendants.map HNode.id) }

/-- Model of `clearHighlights` (visualizer.ts 177-180):
`nodeGroup.selectAll('circle')` matches every circle — ring circles and the
root's circle included — and sets them all to stroke width 2.5; every link
path likewise. -/
def Scene.clearHighlights (s : Scene) : Scene :=
  { nodes := s.nodes.map fun n =>
      { n with ring := n.ring.map fun _ => (2.5 : ℚ), mainStroke := 2.5 }
    links := s.links.map fun l => { l with stroke := 2.5 } }

/-- The id set built by `highlightPath` (visualizer.ts 160-166): the root
sentinel plus every non-empty prefix of the argument, in order. -/
def pathIdsAux (pre : Word) : Word → List Word
  | [] => []
  | c :: rest => (pre ++ [c]) :: pathIdsAux (pre ++ [c]) rest

def pathIds (p : Word) : List Word := rootId :: pathIdsAux [] p

/-- Model of `highlightPath` (visualizer.ts 158-174).  After `clearHighlights`, the
selection `selectAll('g').select('circle:nth-child(2)')` picks, per node
group, the circle that is the second child of the group: that is the main
circle exactly when a ring circle precedes it, i.e. on groups that have a
ring; on ring-less groups (the root and every non-terminal node) the second
child is the text label and nothing is selected.  Links are all restroked
by membership of their target id. -/
def Scene.highlightPath (s : Scene) (p : Word) : Scene :=
  let s' := s.clearHighlights
  let ids := pathIds p
  { nodes := s'.nodes.map fun n =>
      if n.ring.isSome then
        { n with mainStroke := if n.id ∈ ids then 4 else 2.5 }
      else n
    links := s'.links.map fun l =>
      { l with stroke := if l.targetId ∈ ids then 4 else 2.5 } }

/-- The `TrieVisualizer` state: its owned trie and the rendered scene.
`renders` counts the render passes performed, to state how many renders an
operation triggers. -/
structure Viz where
  trie : Trie
  scene : Scene
  renders : Nat

/-- The state `new TrieVisualizer(...)` constructs: fresh trie, empty scene. -/
def Viz.mkNew : Viz :=
  { trie := Trie.mkEmpty, scene := { nodes := [], links := [] }, renders := 0 }

/-- One invocation of the private `render()`. -/
def Viz.render (v : Viz) : Viz :=
  { v with scene := v.scene.render v.trie, renders := v.renders + 1 }

/-- Model of `addWord` (visualizer.ts 112-116): insert, render only when accepted. -/
def Viz.addWord (v : Viz) (w : Word) : Viz × Bool :=
  let r := v.trie.insert w
  let v' := { v with trie := r.1 }
  (if r.2 then v'.render else v', r.2)

/-- The loop of `addWords` (visualizer.ts 120-123): insert every word,
remembering whether any was accepted. -/
def Viz.addWordsLoop : Viz → List Word → Bool → Viz × Bool
  | v, [], changed => (v, changed)
  | v, w :: rest, changed =>
      let r := v.trie.insert w
      Viz.addWordsLoop { v with trie := r.1 } rest (changed || r.2)

/-- Model of `addWords` (visualizer.ts 119-125): one render pass at the end, and only
if some word was accepted. -/
def Viz.addWords (v : Viz) (ws : List Word) : Viz :=
  let r := Viz.addWordsLoop v ws false
  if r.2 then r.1.render else r.1

/-- Model of `clear` (visualizer.ts 139-142). -/
def Viz.clear (v : Viz) : Viz :=
  ({ v with trie := v.trie.clear } : Viz).render

/-- Model of `highlightPath` at the visualizer level. -/
def Viz.highlightPath (v : Viz) (p : Word) : Viz :=
  { v with scene := v.scene.highlightPath p }

/-- Model of `clearHighlights` at the visualizer level. -/
def Viz.clearHighlights (v : Viz) : Viz :=
  { v with scene := v.scene.clearHighlights }

/-- Whether some word of `ws`, inserted in order starting from `t`, is
accepted (`insert` returns true). -/
def anyAccepted (t : Trie) : List Word → Bool
  | [] => false
  | w :: rest =>
      let r := t.insert w
      r.2 || anyAccepted r.1 rest

/-- The sublist of `ws` accepted by inserting in order starting from `t`:
the insertion-ordered list of accepted words. -/
def acceptedList (t : Trie) : List Word → List Word
  | [] => []
  | w :: rest =>
      let r := t.insert w
      if r.2 then w :: acceptedList r.1 rest else acceptedList r.1 rest

-- ─── Array aliasing model for the `words` getter ─────────────────────

/-- A store of array objects; a reference is an index into the store.
Models JS array aliasing: mutating through one reference is visible through
that reference only. -/
structure Store where
  arrs : List (List Word)

/-- Allocate a fresh array (`[...xs]` allocates). -/
def Store.alloc (s : Store) (v : List Word) : Store × Nat :=
  (⟨s.arrs ++ [v]⟩, s.arrs.length)

/-- Read the array behind a reference. -/
def Store.read (s : Store) (r : Nat) : List Word :=
  s.arrs.getD r []

/-- Mutate the array behind a reference in place. -/
def Store.write (s : Store) (r : Nat) (v : List Word) : Store :=
  ⟨s.arrs.set r v⟩

/-- The `words` getter `return [...this._words]` (trie.ts 53-55) under the
store model: read the internal array, allocate a fresh copy of its contents,
hand back the fresh reference. -/
def wordsGetter (s : Store) (internalRef : Nat) : Store × Nat :=
  s.alloc (s.read internalRef)

example : (Trie.mkEmpty.insert ['c', 'a']).2 = true := rfl

example : Trie.mkEmpty.toHierarchy = .mk rootId [] [] false [] [] := rfl

-- ─── Basic lemmas ────────────────────────────────────────────────────

theorem Node.eta : ∀ n : Node, Node.mk n.children n.isTerminal n.words = n
  | .mk _ _ _ => rfl

theorem mapSet_get_eq {m : List (Char × Node)} {k : Char} {v : Node}
    (h : mapGet m k = some v) : mapSet m k v = m := by
  induction m with
  | nil => simp [mapGet] at h
  | cons p rest ih =>
      obtain ⟨k', v'⟩ := p
      by_cases hk : k' = k
      · subst hk
        simp [mapGet] at h
        simp [mapSet, h]
      · simp [mapGet, hk] at h
        simp [mapSet, hk, ih h]

theorem terminalAt_createNode (cs : Word) : terminalAt createNode cs = false := by
  cases cs with
  | nil => rfl
  | cons c rest => rfl

theorem insertAux_false_iff (cs : Word) : ∀ (n : Node) (w : Word),
    (insertAux n cs w).2 = false ↔ terminalAt n cs = true := by
  induction cs with
  | nil =>
      intro n w
      simp only [insertAux, terminalAt, Node.lookup]
      cases h : n.isTerminal <;> simp [h]
  | cons c rest ih =>
      intro n w
      simp only [insertAux, terminalAt, Node.lookup]
      cases hg : mapGet n.children c with
      | some child => simpa [terminalAt] using ih child w
      | none =>
          simp only [Option.getD_none]
          have h1 := ih createNode w
          have h2 := terminalAt_createNode rest
          simp [terminalAt] at h1 h2
          simp [h1, h2]

theorem insertAux_false_eq (cs : Word) : ∀ (n : Node) (w : Word),
    (insertAux n cs w).2 = false → (insertAux n cs w).1 = n := by
  induction cs with
  | nil =>
      intro n w h
      simp only [insertAux] at h ⊢
      cases ht : n.isTerminal
      · simp [ht] at h
      · simp [ht]
  | cons c rest ih =>
      intro n w h
      simp only [insertAux] at h ⊢
      cases hg : mapGet n.children c with
      | some child =>
          have hchild : (insertAux child rest w).1 = child := by
            apply ih
            simpa [hg] using h
          simp [hg, hchild, mapSet_get_eq hg, Node.eta]
      | none =>
          exfalso
          rw [hg] at h
          simp only [Option.getD_none] at h
          have := (insertAux_false_iff rest createNode w).1 h
          rw [terminalAt_createNode] at this
          exact Bool.false_ne_true this

/-- Claim C2: `insert` returns false exactly on the empty word or a word whose
terminal node is already marked, and a false return leaves the trie — its
word list, word count, node count and exported hierarchy — unchanged.
(The model is a total function: no exception can be raised.) -/
theorem insert_false_characterization (t : Trie) (w : Word) :
    ((t.insert w).2 = false ↔ (w = [] ∨ t.isStored w = true)) ∧
    ((t.insert w).2 = false →
      (t.insert w).1 = t ∧
      (t.insert w).1.words = t.words ∧
      (t.insert w).1.wordCount = t.wordCount ∧
      (t.insert w).1.nodeCount = t.nodeCount ∧
      (t.insert w).1.toHierarchy = t.toHierarchy) := by
  by_cases hw : w = []
  · subst hw
    simp [Trie.insert]
  · constructor
    · simp only [Trie.insert, if_neg hw]
      simpa [hw, Trie.isStored] using insertAux_false_iff w t.root w
    · intro hf
      have hroot : (insertAux t.root w w).1 = t.root := by
        apply insertAux_false_eq
        simpa [Trie.insert, hw] using hf
      have hsnd : (insertAux t.root w w).2 = false := by
        simpa [Trie.insert, hw] using hf
      have : (t.insert w).1 = t := by
        simp [Trie.insert, hw, hroot, hsnd]
      refine ⟨this, by rw [this], by rw [this], by rw [this], by rw [this]⟩

/-- Witness for C2 at concrete inputs: inserting `"a"` twice, the second
call returns false and leaves the trie unchanged. -/
theorem insert_false_characterization_witness :
    (((Trie.mkEmpty.insert ['a']).1.insert ['a']).2 = false) ∧
    ((Trie.mkEmpty.insert ['a']).1.insert ['a']).1 = (Trie.mkEmpty.insert ['a']).1 := by
  have h := insert_false_characterization (Trie.mkEmpty.insert ['a']).1 ['a']
  have hfalse : (((Trie.mkEmpty.insert ['a']).1.insert ['a']).2 = false) :=
    (h.1).2 (Or.inr rfl)
  exact ⟨hfalse, (h.2 hfalse).1⟩

/-- Claim C6: Inserting `"cat"`, `"car"`, `"card"` into a fresh trie: each
call returns true, `wordCount` is 3, `nodeCount` is 6, and the hierarchy is
root → c → a → { r (terminal, "car") → d (terminal, "card"), t (terminal,
"cat") } — children sorted by character, so `r` comes before `t`. -/
theorem cat_car_card_roundtrip :
    (Trie.mkEmpty.insert ['c', 'a', 't']).2 = true ∧
    ((Trie.mkEmpty.insert ['c', 'a', 't']).1.insert ['c', 'a', 'r']).2 = true ∧
    (((Trie.mkEmpty.insert ['c', 'a', 't']).1.insert ['c', 'a', 'r']).1.insert
        ['c', 'a', 'r', 'd']).2 = true ∧
    (buildTrie [['c', 'a', 't'], ['c', 'a', 'r'], ['c', 'a', 'r', 'd']]).wordCount = 3 ∧
    (buildTrie [['c', 'a', 't'], ['c', 'a', 'r'], ['c', 'a', 'r', 'd']]).nodeCount = 6 ∧
    (buildTrie [['c', 'a', 't'], ['c', 'a', 'r'], ['c', 'a', 'r', 'd']]).toHierarchy =
      .mk rootId [] [] false []
        [.mk ['c'] ['c'] ['c'] false []
          [.mk ['c', 'a'] ['a'] ['c', 'a'] false []
            [.mk ['c', 'a', 'r'] ['r'] ['c', 'a', 'r'] true [['c', 'a', 'r']]
              [.mk ['c', 'a', 'r', 'd'] ['d'] ['c', 'a', 'r', 'd'] true
                [['c', 'a', 'r', 'd']] []],
             .mk ['c', 'a', 't'] ['t'] ['c', 'a', 't'] true [['c', 'a', 't']] []]]] :=
  ⟨rfl, rfl, rfl, rfl, rfl, rfl⟩

/-- Claim C7: `clear()` yields exactly the state of a freshly constructed
trie (empty word list, word count 0, node count 1, root-only hierarchy),
so re-inserting any word sequence afterwards produces the same words,
counts and hierarchy as inserting it into a fresh trie. -/
theorem clear_resets_to_fresh (t : Trie) (ws : List Word) :
    t.clear = Trie.mkEmpty ∧
    t.clear.words = [] ∧
    t.clear.wordCount = 0 ∧
    t.clear.nodeCount = 1 ∧
    t.clear.toHierarchy = .mk rootId [] [] false [] [] ∧
    buildOn t.clear ws = buildTrie ws ∧
    (buildOn t.clear ws).toHierarchy = (buildTrie ws).toHierarchy ∧
    (buildOn t.clear ws).words = (buildTrie ws).words ∧
    (buildOn t.clear ws).wordCount = (buildTrie ws).wordCount ∧
    (buildOn t.clear ws).nodeCount = (buildTrie ws).nodeCount :=
  ⟨rfl, rfl, rfl, rfl, rfl, rfl, rfl, rfl, rfl, rfl⟩

theorem addWordsLoop_spec (ws : List Word) : ∀ (v : Viz) (changed : Bool),
    (Viz.addWordsLoop v ws changed).1.trie = buildOn v.trie ws ∧
    (Viz.addWordsLoop v ws changed).1.scene = v.scene ∧
    (Viz.addWordsLoop v ws changed).1.renders = v.renders ∧
    (Viz.addWordsLoop v ws changed).2 = (changed || anyAccepted v.trie ws) := by
  induction ws with
  | nil =>
      intro v changed
      simp [Viz.addWordsLoop, buildOn, anyAccepted]
  | cons w rest ih =>
      intro v changed
      have := ih { v with trie := (v.trie.insert w).1 } (changed || (v.trie.insert w).2)
      simp only [Viz.addWordsLoop, buildOn, anyAccepted, List.foldl] at this ⊢
      exact ⟨this.1, this.2.1, this.2.2.1, by rw [this.2.2.2, Bool.or_assoc]⟩

/-- Claim C8: `addWords(ws)` inserts every word of `ws` (the trie ends up as
the fold of `insert` over `ws`), and triggers at most one render pass:
exactly one if some word was newly accepted, none otherwise. -/
theorem addWords_at_most_one_render (v : Viz) (ws : List Word) :
    (v.addWords ws).trie = buildOn v.trie ws ∧
    (v.addWords ws).renders = v.renders + (if anyAccepted v.trie ws then 1 else 0) ∧
    (v.addWords ws).renders ≤ v.renders + 1 := by
  have h := addWordsLoop_spec ws v false
  simp only [Bool.false_or] at h
  unfold Viz.addWords
  cases ha : anyAccepted v.trie ws
  · rw [ha] at h
    simp [h.2.2.2, h.1, h.2.2.1]
  · rw [ha] at h
    simp [h.2.2.2, Viz.render, h.1, h.2.2.1]

theorem insert_wordList (t : Trie) (w : Word) :
    (t.insert w).1.wordList = t.wordList ++ (if (t.insert w).2 then [w] else []) := by
  by_cases hw : w = []
  · simp [Trie.insert, hw]
  · simp only [Trie.insert, if_neg hw]
    cases h : (insertAux t.root w w).2 <;> simp [h]

theorem buildOn_wordList (ws : List Word) : ∀ t : Trie,
    (buildOn t ws).wordList = t.wordList ++ acceptedList t ws := by
  induction ws with
  | nil =>
      intro t
      simp [buildOn, acceptedList]
  | cons w rest ih =>
      intro t
      have h1 := ih (t.insert w).1
      simp only [buildOn, List.foldl] at h1 ⊢
      rw [h1, insert_wordList]
      simp only [acceptedList]
      cases h : (t.insert w).2 <;> simp [h]

/-- Claim C9: The `words` accessor returns the insertion-ordered list of
accepted words, and under the array-store model the getter hands back a
fresh reference: it differs from the internal one, reads back the same
contents, and writing through it leaves the internal array unchanged (so
`wordCount` and later `words` reads, both derived from the internal array,
are unaffected). -/
theorem words_defensive_copy :
    (∀ ws, (buildTrie ws).words = acceptedList Trie.mkEmpty ws) ∧
    (∀ (s : Store) (r : Nat), r < s.arrs.length →
      (wordsGetter s r).2 ≠ r ∧
      Store.read (wordsGetter s r).1 (wordsGetter s r).2 = Store.read s r ∧
      ∀ v, Store.read (Store.write (wordsGetter s r).1 (wordsGetter s r).2 v) r
             = Store.read s r) := by
  constructor
  · intro ws
    have h := buildOn_wordList ws Trie.mkEmpty
    simpa [buildTrie, Trie.words, Trie.mkEmpty] using h
  · intro s r hr
    refine ⟨by simp [wordsGetter, Store.alloc]; omega, ?_, ?_⟩
    · simp only [wordsGetter, Store.alloc, Store.read, List.getD_eq_getElem?_getD]
      rw [List.getElem?_concat_length]
      rfl
    · intro v
      simp only [wordsGetter, Store.alloc, Store.write, Store.read,
        List.getD_eq_getElem?_getD]
      rw [List.getElem?_set_ne (by omega), List.getElem?_append_left hr]

/-- Witness for C9 at a concrete store: one internal array `[['a']]` at
reference 0; the getter's copy reads back `[['a']]` and clearing the copy
leaves the internal array intact. -/
theorem words_defensive_copy_witness :
    (wordsGetter ⟨[[['a']]]⟩ 0).2 ≠ 0 ∧
    Store.read (wordsGetter ⟨[[['a']]]⟩ 0).1 (wordsGetter ⟨[[['a']]]⟩ 0).2 = [['a']] ∧
    Store.read (Store.write (wordsGetter ⟨[[['a']]]⟩ 0).1 (wordsGetter ⟨[[['a']]]⟩ 0).2 []) 0
      = [['a']] := by
  have h := words_defensive_copy.2 ⟨[[['a']]]⟩ 0 (by simp)
  exact ⟨h.1, h.2.1, h.2.2 []⟩

/-- Claim C3, evaluated at the failing input: After inserting `"car"` and
`"cart"` and rendering, `highlightPath("car")` computes the id set
`{__root__, c, ca, car}`, but the node selection
`selectAll('g').select('circle:nth-child(2)')` only matches the main circle
of groups whose main circle is the *second* child, i.e. groups with a
terminal ring: the root, `"c"` and `"ca"` groups (ring-less) keep the
stroke width 2.5 that `clearHighlights` gave them, and only the terminal
`"car"` circle gets the emphasized width 4.  The links do get width 4 for
targets `c`, `ca`, `car` and 2.5 for `cart`. -/
theorem highlightPath_car_scene :
    ((Viz.mkNew.addWords [['c', 'a', 'r'], ['c', 'a', 'r', 't']]).highlightPath
        ['c', 'a', 'r']).scene.nodes =
      [⟨rootId, none, 2.5⟩, ⟨['c'], none, 2.5⟩, ⟨['c', 'a'], none, 2.5⟩,
       ⟨['c', 'a', 'r'], some 2.5, 4⟩, ⟨['c', 'a', 'r', 't'], some 2.5, 2.5⟩] ∧
    ((Viz.mkNew.addWords [['c', 'a', 'r'], ['c', 'a', 'r', 't']]).highlightPath
        ['c', 'a', 'r']).scene.links =
      [⟨['c'], 4⟩, ⟨['c', 'a'], 4⟩, ⟨['c', 'a', 'r'], 4⟩, ⟨['c', 'a', 'r', 't'], 2.5⟩] ∧
    pathIds ['c', 'a', 'r'] = [rootId, ['c'], ['c', 'a'], ['c', 'a', 'r']] ∧
    (2.5 : ℚ) ≠ 4 :=
  ⟨rfl, rfl, rfl, by norm_num⟩

/-- Claim C4 counterexample: The render pass draws the root circle with
stroke width 2 (`visualizer.ts` line 269), but `clearHighlights` sets every
circle — the root's included — to 2.5, so it does not restore the width the
render pass gave: the claim fails already with one word `"a"` and no prior
highlight call. -/
theorem clearHighlights_root_counterexample :
    (Viz.mkNew.addWord ['a']).1.scene.nodes.map RNode.mainStroke = [2, 2.5] ∧
    (Viz.mkNew.addWord ['a']).1.clearHighlights.scene.nodes.map RNode.mainStroke
      = [2.5, 2.5] ∧
    (2 : ℚ) ≠ 2.5 :=
  ⟨rfl, rfl, by norm_num⟩

/-- Claim C4, amended: `clearHighlights` sets the stroke width of every
rendered circle — main circles, root circles and terminal rings alike — and
of every link to the uniform value 2.5.  That equals the render-pass width
of non-root main circles and of links, so those are restored; root circles
and terminal rings (drawn with width 2) are set to 2.5, not restored. -/
theorem clearHighlights_uniform (s : Scene) :
    (∀ n ∈ s.clearHighlights.nodes,
        n.mainStroke = 2.5 ∧ (n.ring = none ∨ n.ring = some 2.5)) ∧
    (∀ l ∈ s.clearHighlights.links, l.stroke = 2.5) := by
  constructor
  · intro n hn
    simp only [Scene.clearHighlights, List.mem_map] at hn
    obtain ⟨n₀, _, rfl⟩ := hn
    refine ⟨rfl, ?_⟩
    cases n₀.ring <;> simp
  · intro l hl
    simp only [Scene.clearHighlights, List.mem_map] at hl
    obtain ⟨l₀, _, rfl⟩ := hl
    rfl

/-- Witness for the amended C4 at a concrete scene: clearing a scene whose
root circle has width 2 yields a root node of width 2.5 with no ring. -/
theorem clearHighlights_uniform_witness :
    (⟨rootId, none, 2.5⟩ : RNode).mainStroke = 2.5 ∧
    ((⟨rootId, none, 2.5⟩ : RNode).ring = none ∨
      (⟨rootId, none, 2.5⟩ : RNode).ring = some 2.5) :=
  (clearHighlights_uniform ⟨[⟨rootId, none, 2⟩], []⟩).1 ⟨rootId, none, 2.5⟩
    (List.mem_cons_self _ _)

-- ─── Induction and membership machinery ──────────────────────────────

theorem sizeChildren_mem : ∀ (cs : List (Char × Node)) (k : Char) (c : Node),
    (k, c) ∈ cs → Node.size c ≤ sizeChildren cs := by
  intro cs
  induction cs with
  | nil => intro k c h; cases h
  | cons q rest ih =>
      intro k c h
      obtain ⟨k', c'⟩ := q
      cases h with
      | head => simp [sizeChildren]
      | tail _ h' =>
          have := ih _ _ h'
          simp only [sizeChildren]
          omega

theorem Node.size_pos : ∀ n : Node, 1 ≤ n.size
  | .mk cs _ _ => by simp [Node.size]

/-- Strong induction over tries: to prove a property of every node it is
enough to prove it for a node assuming it for all its children. -/
theorem Node.strongInd (motive : Node → Prop)
    (ih : ∀ cs b ws, (∀ k c, (k, c) ∈ cs → motive c) → motive (.mk cs b ws)) :
    ∀ n, motive n := by
  have key : ∀ (N : ℕ) (n : Node), n.size ≤ N → motive n := by
    intro N
    induction N with
    | zero =>
        intro n hn
        have := Node.size_pos n
        omega
    | succ N ihN =>
        intro n hn
        cases n with
        | mk cs b ws =>
            apply ih
            intro k c hm
            apply ihN
            have h1 := sizeChildren_mem cs k c hm
            simp only [Node.size] at hn
            omega
  intro n
  exact key n.size n le_rfl

theorem mem_sortHN {x : HNode} {l : List HNode} : x ∈ sortHN l ↔ x ∈ l :=
  (List.perm_insertionSort hLe l).mem_iff

theorem mem_convChildren {x : HNode} : ∀ {cs : List (Char × Node)} {p : Word},
    x ∈ convChildren cs p ↔ ∃ k c, (k, c) ∈ cs ∧ x = Node.toHier c [k] (p ++ [k]) := by
  intro cs p
  induction cs with
  | nil => simp [convChildren]
  | cons q rest ih =>
      obtain ⟨k, c⟩ := q
      simp only [convChildren, List.mem_cons, ih]
      constructor
      · rintro (rfl | ⟨k', c', hm, rfl⟩)
        · exact ⟨k, c, Or.inl rfl, rfl⟩
        · exact ⟨k', c', Or.inr hm, rfl⟩
      · rintro ⟨k', c', (h | hm), rfl⟩
        · rw [Prod.mk.injEq] at h
          obtain ⟨rfl, rfl⟩ := h
          exact Or.inl rfl
        · exact Or.inr ⟨k', c', hm, rfl⟩

theorem descList_def (h : HNode) (rest : List HNode) :
    descList (h :: rest) = h.descendants ++ descList rest := by
  cases h with
  | mk i c p b ws cs => rfl

theorem mem_descList {x : HNode} : ∀ {l : List HNode},
    x ∈ descList l ↔ ∃ h ∈ l, x ∈ h.descendants := by
  intro l
  induction l with
  | nil => simp [descList]
  | cons h rest ih =>
      rw [descList_def]
      simp [ih, List.mem_append]

theorem descendants_def (i c p : Word) (b : Bool) (ws : List Word)
    (cs : List HNode) :
    (HNode.mk i c p b ws cs).descendants = HNode.mk i c p b ws cs :: descList cs := rfl

theorem self_mem_descendants : ∀ h : HNode, h ∈ h.descendants
  | .mk i c p b ws cs => by
      rw [descendants_def]
      exact List.mem_cons_self _ _

theorem entries_def (cs : List (Char × Node)) (b : Bool) (ws : List Word) (p : Word) :
    (Node.mk cs b ws).entries p = (p, Node.mk cs b ws) :: entriesChildren cs p := rfl

theorem entriesChildren_def (k : Char) (c : Node) (rest : List (Char × Node)) (p : Word) :
    entriesChildren ((k, c) :: rest) p = Node.entries c (p ++ [k]) ++ entriesChildren rest p := rfl

theorem mem_entriesChildren {e : Word × Node} : ∀ {cs : List (Char × Node)} {p : Word},
    e ∈ entriesChildren cs p ↔ ∃ k c, (k, c) ∈ cs ∧ e ∈ Node.entries c (p ++ [k]) := by
  intro cs p
  induction cs with
  | nil => simp [entriesChildren]
  | cons q rest ih =>
      obtain ⟨k, c⟩ := q
      rw [entriesChildren_def]
      simp only [List.mem_append, List.mem_cons, ih]
      constructor
      · rintro (h | ⟨k', c', hm, he⟩)
        · exact ⟨k, c, Or.inl rfl, h⟩
        · exact ⟨k', c', Or.inr hm, he⟩
      · rintro ⟨k', c', (h | hm), he⟩
        · rw [Prod.mk.injEq] at h
          obtain ⟨rfl, rfl⟩ := h
          exact Or.inl he
        · exact Or.inr ⟨k', c', hm, he⟩

theorem mapGet_mem : ∀ {m : List (Char × Node)} {k : Char} {v : Node},
    mapGet m k = some v → (k, v) ∈ m := by
  intro m
  induction m with
  | nil => intro k v h; simp [mapGet] at h
  | cons q rest ih =>
      intro k v h
      obtain ⟨k', v'⟩ := q
      by_cases hk : k' = k
      · subst hk
        simp [mapGet] at h
        subst h
        exact List.mem_cons_self _ _
      · simp [mapGet, hk] at h
        exact List.mem_cons_of_mem _ (ih h)

theorem mem_entriesChildren_mapSet {e : Word × Node} :
    ∀ {m : List (Char × Node)} {k : Char} {v : Node} {p : Word},
    e ∈ entriesChildren (mapSet m k v) p →
    e ∈ Node.entries v (p ++ [k]) ∨ e ∈ entriesChildren m p := by
  intro m
  induction m with
  | nil =>
      intro k v p h
      simp only [mapSet] at h
      rw [entriesChildren_def] at h
      simp only [entriesChildren, List.append_nil] at h
      exact Or.inl h
  | cons q rest ih =>
      intro k v p h
      obtain ⟨k', v'⟩ := q
      by_cases hk : k' = k
      · subst hk
        have hset : mapSet ((k', v') :: rest) k' v = (k', v) :: rest := by
          simp [mapSet]
        rw [hset, entriesChildren_def] at h
        rcases List.mem_append.1 h with h1 | h2
        · exact Or.inl h1
        · refine Or.inr ?_
          rw [entriesChildren_def]
          exact List.mem_append.2 (Or.inr h2)
      · have hset : mapSet ((k', v') :: rest) k v = (k', v') :: mapSet rest k v := by
          simp [mapSet, hk]
        rw [hset, entriesChildren_def] at h
        rcases List.mem_append.1 h with h1 | h2
        · refine Or.inr ?_
          rw [entriesChildren_def]
          exact List.mem_append.2 (Or.inl h1)
        · rcases ih h2 with h3 | h4
          · exact Or.inl h3
          · refine Or.inr ?_
            rw [entriesChildren_def]
            exact List.mem_append.2 (Or.inr h4)

-- ─── Prefix lemmas ───────────────────────────────────────────────────

theorem isPfx_append : ∀ p x : Word, isPfx p (p ++ x) = true := by
  intro p
  induction p with
  | nil => intro x; rfl
  | cons a as ih => intro x; simp [isPfx, ih]

theorem isPfx_refl (p : Word) : isPfx p p = true := by
  have := isPfx_append p []
  simpa using this

theorem isPfx_of_append : ∀ (p x q : Word), isPfx (p ++ x) q = true → isPfx p q = true := by
  intro p
  induction p with
  | nil => intro x q _; rfl
  | cons a as ih =>
      intro x q h
      cases q with
      | nil => simp [isPfx] at h
      | cons b bs =>
          simp only [List.cons_append, isPfx, Bool.and_eq_true, decide_eq_true_eq] at h ⊢
          exact ⟨h.1, ih x bs h.2⟩

theorem isPfx_ne_nil {a : Char} {as q : Word} (h : isPfx (a :: as) q = true) : q ≠ [] := by
  intro hq
  subst hq
  simp [isPfx] at h

-- ─── Sortedness of hierarchy children ────────────────────────────────

theorem wordLe_total : ∀ a b : Word, wordLe a b = true ∨ wordLe b a = true := by
  intro a
  induction a with
  | nil => intro b; exact Or.inl rfl
  | cons x xs ih =>
      intro b
      cases b with
      | nil => exact Or.inr rfl
      | cons y ys =>
          rcases lt_trichotomy x y with h | h | h
          · left; simp [wordLe, h]
          · subst h
            rcases ih ys with h' | h'
            · left; simp [wordLe, h']
            · right; simp [wordLe, h']
          · right; simp [wordLe, h]

theorem wordLe_trans : ∀ a b c : Word,
    wordLe a b = true → wordLe b c = true → wordLe a c = true := by
  intro a
  induction a with
  | nil => intro b c _ _; rfl
  | cons x xs ih =>
      intro b c hab hbc
      cases b with
      | nil => simp [wordLe] at hab
      | cons y ys =>
          cases c with
          | nil => simp [wordLe] at hbc
          | cons z zs =>
              simp only [wordLe, Bool.or_eq_true, Bool.and_eq_true,
                decide_eq_true_eq] at hab hbc ⊢
              rcases hab with h1 | ⟨he1, h1'⟩
              · rcases hbc with h2 | ⟨he2, h2'⟩
                · exact Or.inl (lt_trans h1 h2)
                · exact Or.inl (he2 ▸ h1)
              · rcases hbc with h2 | ⟨he2, h2'⟩
                · exact Or.inl (he1 ▸ h2)
                · exact Or.inr ⟨he1.trans he2, ih ys zs h1' h2'⟩

instance : IsTotal HNode hLe := ⟨fun a b => wordLe_total a.char b.char⟩

instance : IsTrans HNode hLe := ⟨fun _ _ _ => wordLe_trans _ _ _⟩

theorem toHier_def (cs : List (Char × Node)) (b : Bool) (ws : List Word)
    (ch p : Word) :
    Node.toHier (.mk cs b ws) ch p =
      HNode.mk (if p = [] then rootId else p) ch p b ws
        (sortHN (convChildren cs p)) := rfl

/-- Every node of a hierarchy export has its children sorted by `char`
ascending and its children's `path` equal to its own `path` plus the
child's `char`; the export of `n` at base path `p` itself carries `path p`
and `char ch`. -/
theorem toHier_sorted_paths : ∀ (n : Node) (ch p : Word),
    (n.toHier ch p).path = p ∧ (n.toHier ch p).char = ch ∧
    ∀ h ∈ (n.toHier ch p).descendants,
      List.Pairwise hLe h.children ∧
      ∀ c ∈ h.children, c.path = h.path ++ c.char := by
  intro n
  induction n using Node.strongInd with
  | ih cs b ws IH =>
      intro ch p
      refine ⟨rfl, rfl, ?_⟩
      intro h hm
      rw [toHier_def, descendants_def] at hm
      rcases List.mem_cons.1 hm with rfl | hm'
      · constructor
        · exact List.sorted_insertionSort hLe (convChildren cs p)
        · intro c hc
          have hc' := mem_sortHN.1 hc
          obtain ⟨k, c₀, hkc, rfl⟩ := mem_convChildren.1 hc'
          have h1 := (IH k c₀ hkc [k] (p ++ [k])).1
          have h2 := (IH k c₀ hkc [k] (p ++ [k])).2.1
          rw [h1, h2]
          rfl
      · obtain ⟨h', hh', hd⟩ := mem_descList.1 hm'
        obtain ⟨k, c₀, hkc, rfl⟩ := mem_convChildren.1 (mem_sortHN.1 hh')
        exact (IH k c₀ hkc [k] (p ++ [k])).2.2 h hd

/-- Claim C5: In every trie's exported hierarchy, every node's children are
sorted by character ascending, and every child's `path` is its parent's
`path` followed by its `char`, with the root's path empty — the claim's own
equivalent local form of "`path` is the concatenation of the `char`s along
the route from the root". -/
theorem hierarchy_sorted_and_paths (t : Trie) :
    t.toHierarchy.path = [] ∧
    ∀ h ∈ t.toHierarchy.descendants,
      List.Pairwise hLe h.children ∧
      ∀ c ∈ h.children, c.path = h.path ++ c.char := by
  have h := toHier_sorted_paths t.root [] []
  exact ⟨h.1, h.2.2⟩

/-- Witness for C5: the root of the trie `{"b","a"}` has its two children
sorted and correctly pathed. -/
theorem hierarchy_sorted_and_paths_witness :
    List.Pairwise hLe (buildTrie [['b'], ['a']]).toHierarchy.children ∧
    ∀ c ∈ (buildTrie [['b'], ['a']]).toHierarchy.children,
      c.path = (buildTrie [['b'], ['a']]).toHierarchy.path ++ c.char :=
  (hierarchy_sorted_and_paths (buildTrie [['b'], ['a']])).2 _
    (self_mem_descendants _)

-- ─── Correspondence between hierarchy nodes and trie nodes ───────────

/-- Every hierarchy descendant of the export of `n` at base path `p`
corresponds to a `(path, node)` entry of `n`: it carries that entry's path,
terminal flag and words, and its id is its path, or the root sentinel when
the path is empty. -/
theorem toHier_descend : ∀ (n : Node) (ch p : Word) (h : HNode),
    h ∈ (n.toHier ch p).descendants →
    ∃ e ∈ n.entries p, h.path = e.1 ∧ h.isTerminal = e.2.isTerminal ∧
      h.words = e.2.words ∧ h.id = (if h.path = [] then rootId else h.path) := by
  intro n
  induction n using Node.strongInd with
  | ih cs b ws IH =>
      intro ch p h hm
      rw [toHier_def, descendants_def] at hm
      rcases List.mem_cons.1 hm with rfl | hm'
      · refine ⟨(p, .mk cs b ws), ?_, rfl, rfl, rfl, rfl⟩
        rw [entries_def]
        exact List.mem_cons_self _ _
      · obtain ⟨h', hh', hd⟩ := mem_descList.1 hm'
        obtain ⟨k, c₀, hkc, rfl⟩ := mem_convChildren.1 (mem_sortHN.1 hh')
        obtain ⟨e, he, h1, h2, h3, h4⟩ := IH k c₀ hkc [k] (p ++ [k]) h hd
        refine ⟨e, ?_, h1, h2, h3, h4⟩
        rw [entries_def]
        exact List.mem_cons_of_mem _ (mem_entriesChildren.2 ⟨k, c₀, hkc, he⟩)

-- ─── The words-field invariant (C10) ─────────────────────────────────

/-- The invariant that `insert` maintains at every node of path `q`: a
terminal node's `words` is exactly `[q]` (the one word spelled by its own
path), a non-terminal node's `words` is empty. -/
def WordsInv (q : Word) (m : Node) : Prop :=
  (m.isTerminal = true → m.words = [q]) ∧ (m.isTerminal = false → m.words = [])

theorem entries_createNode (p : Word) : createNode.entries p = [(p, createNode)] := rfl

theorem wordsInv_createNode (p : Word) : WordsInv p createNode :=
  ⟨fun h => by simp [createNode, Node.isTerminal] at h, fun _ => rfl⟩

theorem insertAux_wordsInv (cs : Word) : ∀ (n : Node) (w p : Word),
    (∀ e ∈ n.entries p, WordsInv e.1 e.2) → p ++ cs = w →
    ∀ e ∈ ((insertAux n cs w).1).entries p, WordsInv e.1 e.2 := by
  induction cs with
  | nil =>
      intro n w p hinv hw e he
      rw [List.append_nil] at hw
      subst hw
      cases n with
      | mk cs' b' ws' =>
          cases hb : b' with
          | true =>
              subst hb
              simp [insertAux, Node.isTerminal] at he
              exact hinv e he
          | false =>
              subst hb
              simp only [insertAux, Node.isTerminal, Bool.false_eq_true,
                if_false, Node.children, Node.words] at he
              rw [entries_def] at he
              rcases List.mem_cons.1 he with rfl | he'
              · have h0 := hinv ((p, Node.mk cs' false ws'))
                  (by rw [entries_def]; exact List.mem_cons_self _ _)
                have hws : ws' = [] := h0.2 rfl
                constructor
                · intro _
                  simp [Node.words, hws]
                · intro hcontra
                  simp [Node.isTerminal] at hcontra
              · apply hinv
                rw [entries_def]
                exact List.mem_cons_of_mem _ he'
  | cons c rest ih =>
      intro n w p hinv hw e he
      cases n with
      | mk cs' b' ws' =>
          simp only [insertAux, Node.children, Node.isTerminal, Node.words] at he
          rw [entries_def] at he
          rcases List.mem_cons.1 he with rfl | he'
          · have h0 := hinv ((p, Node.mk cs' b' ws'))
              (by rw [entries_def]; exact List.mem_cons_self _ _)
            exact h0
          · rcases mem_entriesChildren_mapSet he' with h1 | h2
            · refine ih _ w (p ++ [c]) ?_ ?_ e h1
              · intro e' he''
                cases hg : mapGet cs' c with
                | some c₀ =>
                    rw [hg] at he''
                    simp only [Option.getD_some] at he''
                    apply hinv
                    rw [entries_def]
                    exact List.mem_cons_of_mem _
                      (mem_entriesChildren.2 ⟨c, c₀, mapGet_mem hg, he''⟩)
                | none =>
                    rw [hg] at he''
                    simp only [Option.getD_none] at he''
                    rw [entries_createNode] at he''
                    have heq := List.mem_singleton.1 he''
                    subst heq
                    exact wordsInv_createNode _
              · rw [← hw]
                simp
            · apply hinv
              rw [entries_def]
              exact List.mem_cons_of_mem _ h2

theorem buildOn_wordsInv : ∀ (ws : List Word) (t : Trie),
    (∀ e ∈ t.root.entries [], WordsInv e.1 e.2) →
    ∀ e ∈ (buildOn t ws).root.entries [], WordsInv e.1 e.2 := by
  intro ws
  induction ws with
  | nil =>
      intro t h
      exact h
  | cons w rest ih =>
      intro t h
      show ∀ e ∈ (buildOn (t.insert w).1 rest).root.entries [], WordsInv e.1 e.2
      apply ih
      by_cases hw : w = []
      · subst hw
        exact h
      · simp only [Trie.insert, if_neg hw]
        exact insertAux_wordsInv w t.root w [] h (by simp)

/-- Claim C10: In every reachable trie's export, a node is terminal exactly
when its `words` field is the one-element list holding its own path; every
non-terminal node (the root included) has empty `words`; no node carries
more than one word. -/
theorem terminal_iff_own_word (t : Trie) (ht : t.Reachable) :
    ∀ h ∈ t.toHierarchy.descendants,
      (h.isTerminal = true ↔ h.words = [h.path]) ∧
      (h.isTerminal = false → h.words = []) ∧
      h.words.length ≤ 1 := by
  obtain ⟨ws, rfl⟩ := ht
  intro h hm
  obtain ⟨e, he, hpath, hterm, hwords, _⟩ := toHier_descend _ [] [] h hm
  have hinv := buildOn_wordsInv ws Trie.mkEmpty ?base e he
  case base =>
    intro e' he'
    have h1 : e' ∈ [(([] : Word), createNode)] := he'
    have heq := List.mem_singleton.1 h1
    subst heq
    exact wordsInv_createNode _
  cases hb : e.2.isTerminal with
  | false =>
      have h0 := hinv.2 hb
      rw [hterm, hwords, hpath]
      rw [hb, h0]
      refine ⟨⟨fun hc => by simp at hc, fun hc => by simp at hc⟩, fun _ => rfl, by simp⟩
  | true =>
      have h0 := hinv.1 hb
      rw [hterm, hwords, hpath]
      rw [hb, h0]
      refine ⟨⟨fun _ => rfl, fun _ => rfl⟩, fun hc => by simp at hc, by simp⟩

/-- Witness for C10 at a concrete reachable trie `{"a"}`, at its hierarchy
root: the root is not terminal and carries no words. -/
theorem terminal_iff_own_word_witness :
    ((buildTrie [['a']]).toHierarchy.isTerminal = true ↔
      (buildTrie [['a']]).toHierarchy.words = [(buildTrie [['a']]).toHierarchy.path]) ∧
    ((buildTrie [['a']]).toHierarchy.isTerminal = false →
      (buildTrie [['a']]).toHierarchy.words = []) ∧
    (buildTrie [['a']]).toHierarchy.words.length ≤ 1 :=
  terminal_iff_own_word _ ⟨[['a']], rfl⟩ _ (self_mem_descendants _)

-- ─── Node paths under insertion (C1) ─────────────────────────────────

theorem entries_fst_isPfx : ∀ (n : Node) (p : Word) (e : Word × Node),
    e ∈ n.entries p → isPfx p e.1 = true := by
  intro n
  induction n using Node.strongInd with
  | ih cs b ws IH =>
      intro p e he
      rw [entries_def] at he
      rcases List.mem_cons.1 he with rfl | he'
      · exact isPfx_refl p
      · obtain ⟨k, c, hkc, he''⟩ := mem_entriesChildren.1 he'
        exact isPfx_of_append p [k] e.1 (IH k c hkc (p ++ [k]) e he'')

/-- The walk of `insert` only creates nodes along the inserted word: every
entry of the updated subtree either has the path of an existing entry or a
path extending `p` within `p ++ cs`. -/
theorem insertAux_paths (cs : Word) : ∀ (n : Node) (w p : Word) (e : Word × Node),
    e ∈ ((insertAux n cs w).1).entries p →
    (∃ e' ∈ n.entries p, e.1 = e'.1) ∨ isPfx e.1 (p ++ cs) = true := by
  induction cs with
  | nil =>
      intro n w p e he
      cases n with
      | mk cs' b' ws' =>
          cases hb : b' with
          | true =>
              subst hb
              simp [insertAux, Node.isTerminal] at he
              exact Or.inl ⟨e, he, rfl⟩
          | false =>
              subst hb
              simp only [insertAux, Node.isTerminal, Bool.false_eq_true, if_false,
                Node.children, Node.words] at he
              rw [entries_def] at he
              rcases List.mem_cons.1 he with rfl | he'
              · refine Or.inl ⟨(p, Node.mk cs' false ws'), ?_, rfl⟩
                rw [entries_def]
                exact List.mem_cons_self _ _
              · refine Or.inl ⟨e, ?_, rfl⟩
                rw [entries_def]
                exact List.mem_cons_of_mem _ he'
  | cons c rest ih =>
      intro n w p e he
      cases n with
      | mk cs' b' ws' =>
          simp only [insertAux, Node.children, Node.isTerminal, Node.words] at he
          rw [entries_def] at he
          rcases List.mem_cons.1 he with rfl | he'
          · refine Or.inl ⟨(p, Node.mk cs' b' ws'), ?_, rfl⟩
            rw [entries_def]
            exact List.mem_cons_self _ _
          · rcases mem_entriesChildren_mapSet he' with h1 | h2
            · rcases ih _ w (p ++ [c]) e h1 with ⟨e', he'', heq⟩ | hpfx
              · cases hg : mapGet cs' c with
                | some c₀ =>
                    rw [hg] at he''
                    simp only [Option.getD_some] at he''
                    refine Or.inl ⟨e', ?_, heq⟩
                    rw [entries_def]
                    exact List.mem_cons_of_mem _
                      (mem_entriesChildren.2 ⟨c, c₀, mapGet_mem hg, he''⟩)
                | none =>
                    rw [hg] at he''
                    simp only [Option.getD_none] at he''
                    rw [entries_createNode] at he''
                    have heq' := List.mem_singleton.1 he''
                    subst heq'
                    right
                    rw [heq]
                    have hx : p ++ (c :: rest) = (p ++ [c]) ++ rest := by simp
                    rw [hx]
                    exact isPfx_append _ _
              · right
                have hx : (p ++ [c]) ++ rest = p ++ (c :: rest) := by simp
                rw [hx] at hpfx
                exact hpfx
            · refine Or.inl ⟨e, ?_, rfl⟩
              rw [entries_def]
              exact List.mem_cons_of_mem _ h2

/-- In every reachable trie, every node path is empty (the root) or a
prefix of some accepted word. -/
theorem reachable_paths (t : Trie) (ht : t.Reachable) :
    ∀ e ∈ t.root.entries [], e.1 = [] ∨ ∃ w ∈ t.wordList, isPfx e.1 w = true := by
  obtain ⟨ws, rfl⟩ := ht
  suffices H : ∀ (ws : List Word) (t : Trie),
      (∀ e ∈ t.root.entries [], e.1 = [] ∨ ∃ w ∈ t.wordList, isPfx e.1 w = true) →
      ∀ e ∈ (buildOn t ws).root.entries [],
        e.1 = [] ∨ ∃ w ∈ (buildOn t ws).wordList, isPfx e.1 w = true by
    apply H
    intro e he
    have h1 : e ∈ [(([] : Word), createNode)] := he
    have heq := List.mem_singleton.1 h1
    subst heq
    exact Or.inl rfl
  intro ws
  induction ws with
  | nil => intro t h; exact h
  | cons w rest ih =>
      intro t h
      show ∀ e ∈ (buildOn (t.insert w).1 rest).root.entries [], _
      apply ih
      intro e he
      have hwl : ∀ x ∈ t.wordList, x ∈ (t.insert w).1.wordList := by
        intro x hx
        rw [insert_wordList]
        exact List.mem_append.2 (Or.inl hx)
      by_cases hw : w = []
      · subst hw
        exact h e he
      · have hroot : (t.insert w).1.root = (insertAux t.root w w).1 := by
          simp [Trie.insert, hw]
        rw [hroot] at he
        rcases insertAux_paths w t.root w [] e he with ⟨e', he', heq⟩ | hpfx
        · rcases h e' he' with h0 | ⟨w', hw', hp⟩
          · left; rw [heq]; exact h0
          · right; exact ⟨w', hwl w' hw', heq ▸ hp⟩
        · rw [List.nil_append] at hpfx
          cases hacc : (t.insert w).2 with
          | true =>
              right
              refine ⟨w, ?_, hpfx⟩
              rw [insert_wordList, hacc]
              simp
          | false =>
              have hsnd : (insertAux t.root w w).2 = false := by
                have hx : (t.insert w).2 = (insertAux t.root w w).2 := by
                  simp [Trie.insert, hw]
                rw [← hx]
                exact hacc
              have hr := insertAux_false_eq w t.root w hsnd
              rw [hr] at he
              rcases h e he with h0 | ⟨w', hw', hp⟩
              · exact Or.inl h0
              · exact Or.inr ⟨w', hwl w' hw', hp⟩

/-- Claim C1 counterexample: The root sentinel `'__root__'` is itself a
possible prefix: after `insert("__root__")` the export contains a non-root
node (the one at depth 8) whose id equals the root's id. -/
theorem root_sentinel_collision :
    (buildTrie [rootId]).toHierarchy.id = rootId ∧
    rootId ∈ ((buildTrie [rootId]).toHierarchy.properDescendants.map HNode.id) := by
  exact ⟨rfl, by decide⟩

/-- Claim C1, amended: Provided no inserted word has the sentinel string
`'__root__'` as a prefix, the root's id is the sentinel and differs from
the id of every non-root node of the export, in every reachable trie. -/
theorem root_id_distinct (t : Trie) (ht : t.Reachable)
    (hw : ∀ w ∈ t.wordList, isPfx rootId w = false) :
    t.toHierarchy.id = rootId ∧
    ∀ h ∈ t.toHierarchy.properDescendants, h.id ≠ rootId := by
  have hmain := reachable_paths t ht
  obtain ⟨cs, b, ws, htr⟩ : ∃ cs b ws, t.root = Node.mk cs b ws := by
    cases htr : t.root with
    | mk cs b ws => exact ⟨cs, b, ws, rfl⟩
  have hhier : t.toHierarchy = Node.toHier (Node.mk cs b ws) [] [] := by
    rw [Trie.toHierarchy, htr]
  constructor
  · rw [hhier, toHier_def]
    rfl
  · intro h hm
    rw [hhier, toHier_def] at hm
    simp only [HNode.properDescendants, HNode.children] at hm
    obtain ⟨h', hh', hd⟩ := mem_descList.1 hm
    obtain ⟨k, c₀, hkc, rfl⟩ := mem_convChildren.1 (mem_sortHN.1 hh')
    obtain ⟨e, he, hpath, _, _, hid⟩ := toHier_descend c₀ [k] ([] ++ [k]) h hd
    have hpfx : isPfx ([] ++ [k]) e.1 = true := entries_fst_isPfx c₀ _ e he
    rw [List.nil_append] at hpfx
    have hne : e.1 ≠ [] := isPfx_ne_nil hpfx
    have hpe : e ∈ t.root.entries [] := by
      rw [htr, entries_def]
      exact List.mem_cons_of_mem _ (mem_entriesChildren.2 ⟨k, c₀, hkc, he⟩)
    rcases hmain e hpe with h0 | ⟨w', hw', hp⟩
    · exact absurd h0 hne
    · intro hcontra
      rw [hid, if_neg (by rw [hpath]; exact hne)] at hcontra
      rw [hpath] at hcontra
      rw [hcontra] at hp
      rw [hw w' hw'] at hp
      exact Bool.false_ne_true hp

/-- Witness for the amended C1: in the reachable trie `{"a"}`, whose one
word does not extend the sentinel, the root id is the sentinel and no
non-root node carries it. -/
theorem root_id_distinct_witness :
    (buildTrie [['a']]).toHierarchy.id = rootId ∧
    ∀ h ∈ (buildTrie [['a']]).toHierarchy.properDescendants, h.id ≠ rootId :=
  root_id_distinct (buildTrie [['a']]) ⟨[['a']], rfl⟩
    (by
      intro w hwm
      have h1 : w ∈ [['a']] := hwm
      have heq := List.mem_singleton.1 h1
      subst heq
      rfl)
